import Mathlib

/-!
# Verification of the CompressAI-Vision codec adapter / container layer

Shallow embedding of `compressai_vision/codecs/std_codecs.py`:

* the parallel-encode work splitter `_distribute_parallel_work`,
* the container header writer/reader (`HeaderWriter` / `HeaderReader`),
* the encode/decode container assembly in `VTM.encode` / `VTM.decode`,
* the decode-side per-frame range tolerance gate and inverse normalization,
* the worker partial-bitstream naming and `parcat` concatenation command,
* the `JM.get_encode_cmd` parallel-encoding guard,
* the per-frame byte accounting of `VTM.encode`.

Machine integers are modelled as `Nat`/`Int`; Python `assert` failures and
exceptions are modelled by `Option` results (`none` = raised).
-/

/-! ## Work splitter: `_distribute_parallel_work` (std_codecs.py lines 1046-1075)

The Python loop body runs once per worker: it asserts `num_remaining > 0`,
records `(offset, min(intra_period + 1, num_remaining))`, then advances
`offset` by `intra_period` and decreases `num_remaining` by `intra_period`.
`num_remaining` may go negative in Python before the assert catches it, so it
is modelled as `Int`. -/
def distLoop (intra_period : ℕ) : ℕ → ℕ → ℤ → Option (List ℕ × List ℕ)
  | 0, _, _ => some ([], [])
  | k + 1, offset, num_remaining =>
    if 0 < num_remaining then
      match distLoop intra_period k (offset + intra_period) (num_remaining - intra_period) with
      | some (os, cs) => some (offset :: os, min (intra_period + 1) num_remaining.toNat :: cs)
      | none => none
    else none

/-- Embedding of `_distribute_parallel_work(num_frames, num_workers, intra_period)`.
`none` models an `AssertionError` (`num_remaining > 0` inside the loop, the final
`offsets[-1] + counts[-1] == num_frames`) or the `IndexError` raised by
`offsets[-1]` when `num_workers == 0`. -/
def distribute_parallel_work (num_frames num_workers intra_period : ℕ) :
    Option (List ℕ × List ℕ) :=
  (distLoop intra_period num_workers 0 (num_frames : ℤ)).bind fun oscs =>
    oscs.1.getLast?.bind fun o =>
      oscs.2.getLast?.bind fun c =>
        if o + c = num_frames then some oscs else none

/-- Closed form of the worker loop: it succeeds iff the remaining-frames assert
holds at every iteration, and then worker `i` is assigned offset `off + i*p`
and count `min (p+1) (rem - i*p)`. -/
theorem distLoop_eq (p : ℕ) :
    ∀ (k : ℕ) (off : ℕ) (rem : ℤ),
      distLoop p k off rem =
        if ∀ i < k, 0 < rem - ((i * p : ℕ) : ℤ) then
          some ((List.range k).map (fun i => off + i * p),
                (List.range k).map (fun i => min (p + 1) (rem - ((i * p : ℕ) : ℤ)).toNat))
        else none := by
  intro k
  induction k with
  | zero =>
    intro off rem
    simp [distLoop]
  | succ k ih =>
    intro off rem
    have hsplit : (∀ i < k + 1, 0 < rem - ((i * p : ℕ) : ℤ)) ↔
        (0 < rem ∧ ∀ i < k, 0 < (rem - p) - ((i * p : ℕ) : ℤ)) := by
      constructor
      · intro h
        refine ⟨by simpa using h 0 (Nat.succ_pos k), fun i hi => ?_⟩
        have h2 := h (i + 1) (by omega)
        have hcast : ((i + 1) * p : ℕ) = i * p + p := by ring
        rw [hcast] at h2
        push_cast at h2 ⊢
        omega
      · rintro ⟨h0, h⟩ i hi
        cases i with
        | zero => simpa using h0
        | succ j =>
          have h2 := h j (by omega)
          have hcast : ((j + 1) * p : ℕ) = j * p + p := by ring
          rw [hcast]
          push_cast at h2 ⊢
          omega
    by_cases hrem : 0 < rem
    · rw [distLoop, if_pos hrem, ih]
      by_cases hall : ∀ i < k, 0 < (rem - p) - ((i * p : ℕ) : ℤ)
      · rw [if_pos hall, if_pos (hsplit.mpr ⟨hrem, hall⟩)]
        have hoff : (List.range (k + 1)).map (fun i => off + i * p) =
            off :: (List.range k).map (fun i => (off + p) + i * p) := by
          rw [List.range_succ_eq_map, List.map_cons, List.map_map]
          refine congrArg₂ _ (by simp) ?_
          apply List.map_congr_left
          intro i _
          simp only [Function.comp_apply, Nat.succ_eq_add_one]
          ring
        have hcnt : (List.range (k + 1)).map
              (fun i => min (p + 1) (rem - ((i * p : ℕ) : ℤ)).toNat) =
            min (p + 1) rem.toNat ::
              (List.range k).map (fun i => min (p + 1) ((rem - p) - ((i * p : ℕ) : ℤ)).toNat) := by
          rw [List.range_succ_eq_map, List.map_cons, List.map_map]
          refine congrArg₂ _ (by simp) ?_
          apply List.map_congr_left
          intro i _
          simp only [Function.comp_apply, Nat.succ_eq_add_one]
          congr 2
          have hcast : ((i + 1) * p : ℕ) = i * p + p := by ring
          rw [hcast]
          push_cast
          ring
        rw [hoff, hcnt]
      · rw [if_neg hall, if_neg (fun h => hall (hsplit.mp h).2)]
    · rw [distLoop, if_neg hrem, if_neg]
      intro h
      exact hrem (hsplit.mp h).1

/-- The last element of a map over `List.range`. -/
theorem getLast?_map_range (f : ℕ → ℕ) {w : ℕ} (hw : 0 < w) :
    ((List.range w).map f).getLast? = some (f (w - 1)) := by
  have hwsucc : w - 1 + 1 = w := by omega
  rw [← hwsucc, List.range_succ, List.map_append]
  simp

/-- Indexing (with default) into a map over `List.range`. -/
theorem getD_map_range (f : ℕ → ℕ) {w i : ℕ} (hi : i < w) :
    ((List.range w).map f).getD i 0 = f i := by
  simp [List.getD_eq_getElem?_getD, List.getElem?_map, List.getElem?_range hi]

/-- Structure of any successful `_distribute_parallel_work` call: at least one
worker, every worker's stride start is below `num_frames`, the offsets and
counts follow the loop's closed form, and the final assert holds. -/
theorem distribute_parallel_work_some {n w p : ℕ} {os cs : List ℕ}
    (h : distribute_parallel_work n w p = some (os, cs)) :
    0 < w ∧ (∀ i < w, i * p < n) ∧
      os = (List.range w).map (fun i => i * p) ∧
      cs = (List.range w).map (fun i => min (p + 1) (n - i * p)) ∧
      (w - 1) * p + min (p + 1) (n - (w - 1) * p) = n := by
  have hd := distLoop_eq p w 0 (n : ℤ)
  rcases Nat.eq_zero_or_pos w with hw0 | hw
  · subst hw0
    rw [distribute_parallel_work] at h
    simp [distLoop] at h
  · by_cases hall : ∀ i < w, 0 < (n : ℤ) - ((i * p : ℕ) : ℤ)
    · rw [if_pos hall] at hd
      have hlt : ∀ i < w, i * p < n := by
        intro i hi
        have h2 := hall i hi
        omega
      have hz : ∀ i : ℕ, 0 + i * p = i * p := fun i => Nat.zero_add _
      have hcs : (List.range w).map (fun i => min (p + 1) ((n : ℤ) - ((i * p : ℕ) : ℤ)).toNat) =
          (List.range w).map (fun i => min (p + 1) (n - i * p)) := by
        apply List.map_congr_left
        intro i _
        rw [Int.toNat_sub]
      have hos : (List.range w).map (fun i => 0 + i * p) =
          (List.range w).map (fun i => i * p) := by
        apply List.map_congr_left
        intro i _
        exact Nat.zero_add _
      rw [hos, hcs] at hd
      have hlast : ((List.range w).map (fun i => i * p)).getLast? = some ((w - 1) * p) :=
        getLast?_map_range _ hw
      have hlastc : ((List.range w).map (fun i => min (p + 1) (n - i * p))).getLast? =
          some (min (p + 1) (n - (w - 1) * p)) :=
        getLast?_map_range _ hw
      rw [distribute_parallel_work, hd, Option.some_bind, hlast, Option.some_bind,
        hlastc, Option.some_bind] at h
      by_cases hfin : (w - 1) * p + min (p + 1) (n - (w - 1) * p) = n
      · rw [if_pos hfin] at h
        simp only [Option.some.injEq, Prod.mk.injEq] at h
        obtain ⟨hos2, hcs2⟩ := h
        exact ⟨hw, hlt, hos2.symm, hcs2.symm, hfin⟩
      · rw [if_neg hfin] at h
        exact absurd h (by simp)
    · rw [if_neg hall] at hd
      rw [distribute_parallel_work, hd] at h
      exact absurd h (by simp)

/-- Two half-open ranges `[a.1, a.1+a.2)` in a worker assignment list never
contain a common frame. This is the "no overlap" part of claim C1. -/
def pairwiseDisjointRanges (os cs : List ℕ) : Prop :=
  List.Pairwise (fun a b => ∀ k : ℕ,
    ¬((a.1 ≤ k ∧ k < a.1 + a.2) ∧ (b.1 ≤ k ∧ k < b.1 + b.2))) (os.zip cs)

/-- The union of the ranges `[offset, offset+count)` equals `[0, n)`:
every frame below `n` is covered and no range reaches past `n`. -/
def coversExactly (os cs : List ℕ) (n : ℕ) : Prop :=
  (∀ k < n, ∃ pr ∈ os.zip cs, pr.1 ≤ k ∧ k < pr.1 + pr.2) ∧
  (∀ pr ∈ os.zip cs, pr.1 + pr.2 ≤ n)

/-- **C1, counterexample.** On `num_frames=9`, `num_workers=2`,
`refresh_period=4` — a call satisfying the claim's preconditions — the splitter
returns ranges `[0,5)` and `[4,9)`, which both contain frame 4: the returned
ranges do *not* partition `[0,9)` without overlap. -/
theorem C1_counterexample :
    distribute_parallel_work 9 2 4 = some ([0, 4], [5, 5]) ∧
    ¬ pairwiseDisjointRanges [0, 4] [5, 5] := by
  refine ⟨by decide, fun hdisj => ?_⟩
  have h4 := (List.pairwise_cons.mp hdisj).1 (4, 5) (by simp [List.zip]) 4
  omega

/-- **C1, amended.** For every call to the work splitter that returns, the
per-worker ranges `[offset, offset+count)` cover `[0, num_frames)` exactly —
no gap, and no range past the end — and the final assignment's
`offset + count` equals `num_frames`.  (Consecutive ranges deliberately
overlap in one boundary frame, so the "no overlap" part of the original
claim is dropped.) -/
theorem C1_ranges_cover_exactly {n w p : ℕ} {os cs : List ℕ}
    (h : distribute_parallel_work n w p = some (os, cs)) :
    coversExactly os cs n ∧
    ∃ o c, os.getLast? = some o ∧ cs.getLast? = some c ∧ o + c = n := by
  obtain ⟨hw, hlt, hos, hcs, hfin⟩ := distribute_parallel_work_some h
  subst hos hcs
  have hzip : ((List.range w).map (fun i => i * p)).zip
      ((List.range w).map (fun i => min (p + 1) (n - i * p))) =
      (List.range w).map (fun i => (i * p, min (p + 1) (n - i * p))) :=
    List.zip_map' _ _ _
  constructor
  · constructor
    · intro k hk
      rcases Nat.eq_zero_or_pos p with hp0 | hp
      · -- p = 0: the final assert forces n = 1, and worker 0 covers frame 0.
        subst hp0
        have hn1 : n = 1 := by
          simp only [Nat.mul_zero, Nat.zero_add, Nat.sub_zero] at hfin
          omega
        refine ⟨(0 * 0, min (0 + 1) (n - 0 * 0)), ?_, ?_⟩
        · rw [hzip]
          exact List.mem_map_of_mem _ (List.mem_range.mpr hw)
        · simp only [Nat.mul_zero, Nat.zero_mul, Nat.sub_zero]
          omega
      · -- p > 0: frame k lies in chunk min (k / p) (w - 1).
        set i := min (k / p) (w - 1) with hi
        have hiw : i < w := by omega
        have hdm : p * (k / p) + k % p = k := Nat.div_add_mod k p
        have hmod : k % p < p := Nat.mod_lt _ hp
        refine ⟨(i * p, min (p + 1) (n - i * p)), ?_, ?_⟩
        · rw [hzip]
          exact List.mem_map_of_mem _ (List.mem_range.mpr hiw)
        · rcases Nat.le_total (w - 1) (k / p) with hcase | hcase
          · -- k is in the final chunk.
            have hieq : i = w - 1 := by omega
            rw [hieq]
            have hle : (w - 1) * p ≤ (k / p) * p := Nat.mul_le_mul_right _ hcase
            have hle2 : (k / p) * p ≤ k := by
              have := Nat.div_mul_le_self k p
              omega
            omega
          · -- k is in chunk k / p, which has the full p + 1 frames.
            have hieq : i = k / p := by omega
            rcases Nat.lt_or_ge (k / p) (w - 1) with hlt2 | hge
            · have hfull := hlt (k / p + 1) (by omega)
              have hmul : (k / p + 1) * p = (k / p) * p + p := by ring
              rw [hmul] at hfull
              have hmul2 : p * (k / p) = (k / p) * p := Nat.mul_comm _ _
              rw [hieq]
              omega
            · have hieq2 : i = w - 1 := by omega
              rw [hieq2]
              have hle : (w - 1) * p ≤ (k / p) * p := Nat.mul_le_mul_right _ hge
              have hle2 : (k / p) * p ≤ k := Nat.div_mul_le_self k p
              have hmul2 : p * (k / p) = (k / p) * p := Nat.mul_comm _ _
              omega
    · intro pr hpr
      rw [hzip] at hpr
      obtain ⟨i, hi, rfl⟩ := List.mem_map.mp hpr
      have := hlt i (List.mem_range.mp hi)
      omega
  · exact ⟨(w - 1) * p, min (p + 1) (n - (w - 1) * p),
      getLast?_map_range _ hw, getLast?_map_range _ hw, hfin⟩

/-- **C1 witness**: the covering property holds on the concrete call
`_distribute_parallel_work(9, 2, 4)`. -/
theorem C1_ranges_cover_exactly_witness :
    distribute_parallel_work 9 2 4 = some ([0, 4], [5, 5]) ∧
    (coversExactly [0, 4] [5, 5] 9 ∧
     ∃ o c, ([0, 4] : List ℕ).getLast? = some o ∧
       ([5, 5] : List ℕ).getLast? = some c ∧ o + c = 9) :=
  ⟨by decide, @C1_ranges_cover_exactly 9 2 4 [0, 4] [5, 5] (by decide)⟩

/-- The per-worker assignment rule of claim C2: worker `i` gets
`min (p + 1)` of the frames remaining at step `i`, the offset advances by
exactly `p` between consecutive workers, consecutive chunks share exactly the
one boundary frame `offsets[i+1]`, and the final offset + count reach
`num_frames` exactly. -/
def splitAlgorithmSpec (n w p : ℕ) (os cs : List ℕ) : Prop :=
  os.length = w ∧ cs.length = w ∧
  (∀ i < w, cs.getD i 0 = min (p + 1) (n - i * p)) ∧
  (∀ i, i + 1 < w → os.getD (i + 1) 0 = os.getD i 0 + p) ∧
  (∀ i, i + 1 < w → ∀ k : ℕ,
    ((os.getD i 0 ≤ k ∧ k < os.getD i 0 + cs.getD i 0) ∧
     (os.getD (i + 1) 0 ≤ k ∧ k < os.getD (i + 1) 0 + cs.getD (i + 1) 0)) ↔
    k = os.getD (i + 1) 0) ∧
  (∃ o c, os.getLast? = some o ∧ cs.getLast? = some c ∧ o + c = n)

/-- **C2.** Every returning call of the work splitter follows the documented
algorithm: `count_i = min(refresh_period + 1, frames remaining at step i)`,
offsets advance by exactly `refresh_period`, consecutive chunks share exactly
one boundary frame, and `offsets[-1] + counts[-1] = num_frames`. -/
theorem C2_split_algorithm {n w p : ℕ} {os cs : List ℕ}
    (h : distribute_parallel_work n w p = some (os, cs)) :
    splitAlgorithmSpec n w p os cs := by
  obtain ⟨hw, hlt, hos, hcs, hfin⟩ := distribute_parallel_work_some h
  subst hos hcs
  have hosD : ∀ i < w, ((List.range w).map (fun i => i * p)).getD i 0 = i * p :=
    fun i hi => getD_map_range _ hi
  have hcsD : ∀ i < w,
      ((List.range w).map (fun i => min (p + 1) (n - i * p))).getD i 0 =
        min (p + 1) (n - i * p) :=
    fun i hi => getD_map_range _ hi
  refine ⟨by simp, by simp, fun i hi => hcsD i hi, fun i hi => ?_, fun i hi k => ?_, ?_⟩
  · rw [hosD i (by omega), hosD (i + 1) hi]
    ring
  · have h1 := hosD i (by omega)
    have h2 := hosD (i + 1) hi
    have h3 := hcsD i (by omega)
    have h4 := hcsD (i + 1) hi
    have hfull : min (p + 1) (n - i * p) = p + 1 := by
      have := hlt (i + 1) hi
      have hmul : (i + 1) * p = i * p + p := by ring
      omega
    have hnext := hlt (i + 1) hi
    have hmul : (i + 1) * p = i * p + p := by ring
    rw [h1, h2, h3, h4, hfull]
    omega
  · exact ⟨(w - 1) * p, min (p + 1) (n - (w - 1) * p),
      getLast?_map_range _ hw, getLast?_map_range _ hw, hfin⟩

/-- **C2 witness**: the algorithm spec holds on the concrete call
`_distribute_parallel_work(9, 2, 4)`. -/
theorem C2_split_algorithm_witness :
    distribute_parallel_work 9 2 4 = some ([0, 4], [5, 5]) ∧
    splitAlgorithmSpec 9 2 4 [0, 4] [5, 5] :=
  ⟨by decide, @C2_split_algorithm 9 2 4 [0, 4] [5, 5] (by decide)⟩

/-- **C7.** Scenario A: `_distribute_parallel_work(9, 2, 4)` returns
`offsets=[0,4]`, `counts=[5,5]`; the two chunks `[0,5)` and `[4,9)` share
exactly frame 4, and `offsets[-1] + counts[-1] = 9`. -/
theorem C7_scenario_A :
    distribute_parallel_work 9 2 4 = some ([0, 4], [5, 5]) ∧
    (∀ k : ℕ, ((0 ≤ k ∧ k < 0 + 5) ∧ (4 ≤ k ∧ k < 4 + 5)) ↔ k = 4) ∧
    4 + 5 = 9 :=
  ⟨by decide, fun k => by omega, rfl⟩

/-! ## Container header (std_codecs.py lines 975-1043, `VTM.encode` 491-512,
`VTM.decode` 615-629)

The byte-level primitives `write_uchars` / `write_uints` / `write_float32` and
their readers live in `compressai_vision/codecs/encdec_utils`, which is not
part of the provided sources; they are modelled from the spec (§4.1): all
integer fields fixed-width in one consistent byte order (big-endian here),
floats as their 32-bit IEEE-754 bit patterns. A byte stream is a `List ℕ`
of values `< 256`; a reader returns `none` on a truncated stream. -/

/-- Modelled from the spec: `write_uchars` for a single value — one byte. -/
def write_uchar (v : ℕ) : List ℕ := [v % 256]

/-- Modelled from the spec: `write_uints` for a single value — four bytes,
fixed width, big-endian. -/
def write_uint32 (v : ℕ) : List ℕ :=
  [v / 2 ^ 24 % 256, v / 2 ^ 16 % 256, v / 2 ^ 8 % 256, v % 256]

/-- Modelled from the spec: `write_float32` — a 32-bit IEEE-754 value, carried
here as its 32-bit pattern, serialized like a 32-bit unsigned field. -/
def write_float32 (bits : ℕ) : List ℕ := write_uint32 bits

/-- Modelled from the spec: read one unsigned byte; `none` on truncation. -/
def read_uchar : List ℕ → Option (ℕ × List ℕ)
  | [] => none
  | b :: r => some (b, r)

/-- Modelled from the spec: read one 4-byte big-endian unsigned field;
`none` on truncation. -/
def read_uint32 : List ℕ → Option (ℕ × List ℕ)
  | b0 :: b1 :: b2 :: b3 :: r => some (((b0 * 256 + b1) * 256 + b2) * 256 + b3, r)
  | _ => none

/-- Modelled from the spec: read one 32-bit float (as its bit pattern). -/
def read_float32 : List ℕ → Option (ℕ × List ℕ) := read_uint32

/-- `SequenceInfo` (spec §3): written once per encoded unit. -/
structure SequenceInfo where
  bitdepth : ℕ
  frameHeight : ℕ
  frameWidth : ℕ
  numFrames : ℕ
deriving DecidableEq, Repr

/-- `FrameInfo` as buffered by the encoder: the per-frame normalization range,
each value a 32-bit IEEE-754 float carried as its bit pattern. -/
structure FrameInfo where
  minv : ℕ
  maxv : ℕ
deriving DecidableEq, Repr

/-- A `FrameInfo` as returned by `HeaderReader.read_frame_info`, which stamps a
sequential `frame_id` from its internal counter. -/
structure FrameInfoRead where
  frame_id : ℕ
  minv : ℕ
  maxv : ℕ
deriving DecidableEq, Repr

/-- `HeaderWriter.write_sequence_info`: bit depth (1 uchar), frame size
(height then width, 2 uints), frame count (1 uint). -/
def HeaderWriter.write_sequence_info (si : SequenceInfo) : List ℕ :=
  write_uchar si.bitdepth ++
    (write_uint32 si.frameHeight ++ write_uint32 si.frameWidth) ++
    write_uint32 si.numFrames

/-- `HeaderWriter.write_frame_info`: min value then max value (2 float32). -/
def HeaderWriter.write_frame_info (fi : FrameInfo) : List ℕ :=
  write_float32 fi.minv ++ write_float32 fi.maxv

/-- `HeaderReader.read_sequence_info`: one uchar (bit depth), two uints
(height, width), one uint (frame count). -/
def HeaderReader.read_sequence_info (bs : List ℕ) : Option (SequenceInfo × List ℕ) :=
  match read_uchar bs with
  | none => none
  | some (bitdepth, r1) =>
    match read_uint32 r1 with
    | none => none
    | some (h, r2) =>
      match read_uint32 r2 with
      | none => none
      | some (w, r3) =>
        match read_uint32 r3 with
        | none => none
        | some (nf, r4) => some (⟨bitdepth, h, w, nf⟩, r4)

/-- `HeaderReader.read_frame_info`: min then max (2 float32), stamped with the
reader's frame counter, passed explicitly here instead of mutable state. -/
def HeaderReader.read_frame_info (frameId : ℕ) (bs : List ℕ) :
    Option (FrameInfoRead × List ℕ) :=
  match read_float32 bs with
  | none => none
  | some (mn, r1) =>
    match read_float32 r1 with
    | none => none
    | some (mx, r2) => some (⟨frameId, mn, mx⟩, r2)

/-- The `VTM.decode` loop `[read_frame_info(fd) for _ in range(num_frames)]`:
read `count` frame records, stamping ids from `idx` upward. -/
def readFrameInfos : ℕ → ℕ → List ℕ → Option (List FrameInfoRead × List ℕ)
  | 0, _, bs => some ([], bs)
  | count + 1, idx, bs =>
    match HeaderReader.read_frame_info idx bs with
    | none => none
    | some (fi, r) =>
      match readFrameInfos count (idx + 1) r with
      | none => none
      | some (fis, rest) => some (fi :: fis, rest)

/-- The id-stamping the reader performs, as a pure function. -/
def stampFrom (idx : ℕ) : List FrameInfo → List FrameInfoRead
  | [] => []
  | fi :: t => ⟨idx, fi.minv, fi.maxv⟩ :: stampFrom (idx + 1) t

/-- `VTM.encode` (lines 491-512): assert the header frame count equals the
number of buffered `FrameInfo` records, then emit
`SequenceInfo ∥ FrameInfo[num_frames] ∥ inner codec payload`. -/
def VTM.buildContainerBitstream (si : SequenceInfo) (buffer : List FrameInfo)
    (innerCodecBitstream : List ℕ) : Option (List ℕ) :=
  if si.numFrames = buffer.length then
    some (HeaderWriter.write_sequence_info si ++
      buffer.flatMap HeaderWriter.write_frame_info ++ innerCodecBitstream)
  else none

/-- `VTM.decode` (lines 615-629): read the `SequenceInfo`, then exactly
`num_frames` `FrameInfo` records, from the front; the remaining bytes are
written unmodified to the temporary file handed to the external decoder. -/
def VTM.readContainerBitstream (bs : List ℕ) :
    Option (SequenceInfo × List FrameInfoRead × List ℕ) :=
  match HeaderReader.read_sequence_info bs with
  | none => none
  | some (si, r) =>
    match readFrameInfos si.numFrames 0 r with
    | none => none
    | some (fis, rest) => some (si, fis, rest)

/-- Reading back a serialized 4-byte field recovers any value `< 2^32`. -/
theorem read_uint32_write (v : ℕ) (hv : v < 2 ^ 32) (r : List ℕ) :
    read_uint32 (write_uint32 v ++ r) = some (v, r) := by
  simp only [write_uint32, List.cons_append, List.nil_append, read_uint32,
    Option.some.injEq, Prod.mk.injEq, and_true]
  omega

/-- Reading back a serialized `SequenceInfo` recovers it field-for-field,
leaving the remaining bytes untouched. -/
theorem read_sequence_info_write (si : SequenceInfo) (r : List ℕ)
    (hbd : si.bitdepth < 256) (hh : si.frameHeight < 2 ^ 32)
    (hw : si.frameWidth < 2 ^ 32) (hnf : si.numFrames < 2 ^ 32) :
    HeaderReader.read_sequence_info (HeaderWriter.write_sequence_info si ++ r) =
      some (si, r) := by
  have hbmod : si.bitdepth % 256 = si.bitdepth := Nat.mod_eq_of_lt hbd
  simp only [HeaderWriter.write_sequence_info, write_uchar, List.append_assoc,
    List.cons_append, List.nil_append, HeaderReader.read_sequence_info, read_uchar,
    read_uint32_write si.frameHeight hh, read_uint32_write si.frameWidth hw,
    read_uint32_write si.numFrames hnf, hbmod]

/-- Reading back `count` serialized `FrameInfo` records recovers them with
sequential ids, leaving the remaining bytes untouched. -/
theorem readFrameInfos_write (fis : List FrameInfo) (idx : ℕ) (r : List ℕ)
    (hv : ∀ fi ∈ fis, fi.minv < 2 ^ 32 ∧ fi.maxv < 2 ^ 32) :
    readFrameInfos fis.length idx (fis.flatMap HeaderWriter.write_frame_info ++ r) =
      some (stampFrom idx fis, r) := by
  induction fis generalizing idx with
  | nil => simp [readFrameInfos, stampFrom]
  | cons fi t ih =>
    have hfi := hv fi (List.mem_cons_self fi t)
    simp only [List.length_cons, List.flatMap_cons, List.append_assoc, readFrameInfos,
      HeaderReader.read_frame_info, HeaderWriter.write_frame_info, write_float32,
      read_float32, List.append_assoc, read_uint32_write fi.minv hfi.1,
      read_uint32_write fi.maxv hfi.2, stampFrom]
    rw [ih (idx + 1) (fun fi hf => hv fi (List.mem_cons_of_mem _ hf))]

/-- Stamping ids preserves the recorded range fields. -/
theorem stampFrom_fields (fis : List FrameInfo) :
    ∀ idx, (stampFrom idx fis).map (fun fr => (⟨fr.minv, fr.maxv⟩ : FrameInfo)) = fis := by
  induction fis with
  | nil => intro idx; rfl
  | cons fi t ih => intro idx; simp [stampFrom, ih]

/-- **C3.** Header round-trip: writing any valid `SequenceInfo` followed by its
`FrameInfo` records and reading the result back recovers every field unchanged
(bit depth, height, width, frame count, each frame's min and max, the latter
stamped with sequential frame ids), and the on-disk field order is exactly
bit depth, height, width, frame count, then per frame min then max. -/
theorem C3_header_roundtrip (si : SequenceInfo) (fis : List FrameInfo)
    (hbd : 1 ≤ si.bitdepth ∧ si.bitdepth ≤ 16)
    (hh : 0 < si.frameHeight ∧ si.frameHeight < 2 ^ 32)
    (hw : 0 < si.frameWidth ∧ si.frameWidth < 2 ^ 32)
    (hnf : 0 < si.numFrames ∧ si.numFrames < 2 ^ 32)
    (hcount : si.numFrames = fis.length)
    (hfi : ∀ fi ∈ fis, fi.minv < 2 ^ 32 ∧ fi.maxv < 2 ^ 32) :
    VTM.readContainerBitstream
        (HeaderWriter.write_sequence_info si ++ fis.flatMap HeaderWriter.write_frame_info) =
      some (si, stampFrom 0 fis, []) ∧
    (stampFrom 0 fis).map (fun fr => (⟨fr.minv, fr.maxv⟩ : FrameInfo)) = fis ∧
    HeaderWriter.write_sequence_info si =
      write_uchar si.bitdepth ++ write_uint32 si.frameHeight ++
        write_uint32 si.frameWidth ++ write_uint32 si.numFrames ∧
    ∀ fi ∈ fis, HeaderWriter.write_frame_info fi =
      write_float32 fi.minv ++ write_float32 fi.maxv := by
  have h1 : HeaderReader.read_sequence_info
      (HeaderWriter.write_sequence_info si ++ fis.flatMap HeaderWriter.write_frame_info) =
      some (si, fis.flatMap HeaderWriter.write_frame_info) :=
    read_sequence_info_write si _ (by omega) hh.2 hw.2 hnf.2
  have h2 : readFrameInfos si.numFrames 0 (fis.flatMap HeaderWriter.write_frame_info) =
      some (stampFrom 0 fis, []) := by
    rw [hcount]
    simpa using readFrameInfos_write fis 0 [] hfi
  refine ⟨?_, stampFrom_fields fis 0, by simp [HeaderWriter.write_sequence_info], fun fi _ => rfl⟩
  simp only [VTM.readContainerBitstream, h1, h2]

/-- **C3 witness**: the round trip on a concrete 3-frame, 64×64, 10-bit
sequence with range `(-20.0, 20.0)` (float32 patterns `0xC1A00000` /
`0x41A00000`). -/
theorem C3_header_roundtrip_witness :
    VTM.readContainerBitstream
        (HeaderWriter.write_sequence_info ⟨10, 64, 64, 3⟩ ++
          ([⟨3248488448, 1101004800⟩, ⟨3248488448, 1101004800⟩,
            ⟨3248488448, 1101004800⟩] : List FrameInfo).flatMap
            HeaderWriter.write_frame_info) =
      some (⟨10, 64, 64, 3⟩,
        stampFrom 0 [⟨3248488448, 1101004800⟩, ⟨3248488448, 1101004800⟩,
          ⟨3248488448, 1101004800⟩], []) ∧
    (stampFrom 0 [⟨3248488448, 1101004800⟩, ⟨3248488448, 1101004800⟩,
        ⟨3248488448, 1101004800⟩]).map (fun fr => (⟨fr.minv, fr.maxv⟩ : FrameInfo)) =
      [⟨3248488448, 1101004800⟩, ⟨3248488448, 1101004800⟩, ⟨3248488448, 1101004800⟩] ∧
    HeaderWriter.write_sequence_info ⟨10, 64, 64, 3⟩ =
      write_uchar 10 ++ write_uint32 64 ++ write_uint32 64 ++ write_uint32 3 ∧
    ∀ fi ∈ ([⟨3248488448, 1101004800⟩, ⟨3248488448, 1101004800⟩,
        ⟨3248488448, 1101004800⟩] : List FrameInfo),
      HeaderWriter.write_frame_info fi = write_float32 fi.minv ++ write_float32 fi.maxv :=
  C3_header_roundtrip ⟨10, 64, 64, 3⟩ _ (by decide) (by decide) (by decide) (by decide)
    (by decide) (by decide)

/-- **C6.** The finalized bitstream is exactly
`SequenceInfo ∥ FrameInfo[num_frames] ∥ inner codec payload` — with
`num_frames = len(frame_info_buffer)` enforced before writing — and the decode
path reads the `SequenceInfo`, then exactly `num_frames` `FrameInfo` records,
and hands every remaining byte unmodified to the external decoder. -/
theorem C6_container_layout (si : SequenceInfo) (fis : List FrameInfo) (payload : List ℕ)
    (hbd : si.bitdepth < 256) (hh : si.frameHeight < 2 ^ 32)
    (hw : si.frameWidth < 2 ^ 32) (hnf : si.numFrames < 2 ^ 32)
    (hcount : si.numFrames = fis.length)
    (hfi : ∀ fi ∈ fis, fi.minv < 2 ^ 32 ∧ fi.maxv < 2 ^ 32) :
    VTM.buildContainerBitstream si fis payload =
      some (HeaderWriter.write_sequence_info si ++
        fis.flatMap HeaderWriter.write_frame_info ++ payload) ∧
    (∀ fis2 : List FrameInfo, si.numFrames ≠ fis2.length →
      VTM.buildContainerBitstream si fis2 payload = none) ∧
    VTM.readContainerBitstream
        (HeaderWriter.write_sequence_info si ++
          fis.flatMap HeaderWriter.write_frame_info ++ payload) =
      some (si, stampFrom 0 fis, payload) := by
  refine ⟨by rw [VTM.buildContainerBitstream, if_pos hcount],
    fun fis2 hne => by rw [VTM.buildContainerBitstream, if_neg hne], ?_⟩
  have h1 : HeaderReader.read_sequence_info
      (HeaderWriter.write_sequence_info si ++
        (fis.flatMap HeaderWriter.write_frame_info ++ payload)) =
      some (si, fis.flatMap HeaderWriter.write_frame_info ++ payload) :=
    read_sequence_info_write si _ hbd hh hw hnf
  have h2 : readFrameInfos si.numFrames 0
      (fis.flatMap HeaderWriter.write_frame_info ++ payload) =
      some (stampFrom 0 fis, payload) := by
    rw [hcount]
    exact readFrameInfos_write fis 0 payload hfi
  rw [List.append_assoc]
  simp only [VTM.readContainerBitstream, h1, h2]

/-- **C6 witness**: container layout and decode-side split on a concrete
sequence with a 4-byte opaque inner payload. -/
theorem C6_container_layout_witness :
    VTM.buildContainerBitstream ⟨10, 64, 64, 2⟩
        [⟨3248488448, 1101004800⟩, ⟨3248488448, 1101004800⟩] [222, 173, 190, 239] =
      some (HeaderWriter.write_sequence_info ⟨10, 64, 64, 2⟩ ++
        ([⟨3248488448, 1101004800⟩, ⟨3248488448, 1101004800⟩] : List FrameInfo).flatMap
          HeaderWriter.write_frame_info ++ [222, 173, 190, 239]) ∧
    (∀ fis2 : List FrameInfo, (⟨10, 64, 64, 2⟩ : SequenceInfo).numFrames ≠ fis2.length →
      VTM.buildContainerBitstream ⟨10, 64, 64, 2⟩ fis2 [222, 173, 190, 239] = none) ∧
    VTM.readContainerBitstream
        (HeaderWriter.write_sequence_info ⟨10, 64, 64, 2⟩ ++
          ([⟨3248488448, 1101004800⟩, ⟨3248488448, 1101004800⟩] : List FrameInfo).flatMap
            HeaderWriter.write_frame_info ++ [222, 173, 190, 239]) =
      some (⟨10, 64, 64, 2⟩,
        stampFrom 0 [⟨3248488448, 1101004800⟩, ⟨3248488448, 1101004800⟩],
        [222, 173, 190, 239]) :=
  C6_container_layout ⟨10, 64, 64, 2⟩ _ _ (by decide) (by decide) (by decide) (by decide)
    (by decide) (by decide)

/-! ## Decode range gate and inverse normalization (`VTM.decode` lines 662-670)

The decoded frame values and normalization ranges are real numbers; they are
modelled over `ℚ`. `min_max_inv_normalization` lives in `codecs/utils`, which
is not part of the provided sources; it is modelled from the spec (§4.2) as
the exact linear inverse of the `[min, max] → [0, 2^bitdepth - 1]` map. -/

/-- Python `math.isclose(a, b, rel_tol=1e-4, abs_tol=1e-4)`:
`|a-b| <= max(rel_tol * max(|a|, |b|), abs_tol)`. -/
def isclose (a b : ℚ) : Bool :=
  decide (|a - b| ≤ max (1 / 10000 * max |a| |b|) (1 / 10000))

/-- The numeric content of one `FrameInfo` record at decode time. -/
structure FrameRange where
  minv : ℚ
  maxv : ℚ
deriving DecidableEq

/-- Modelled from the spec: `min_max_inv_normalization(x, minv, maxv, bitdepth)`
maps the quantization level `x` linearly back from `[0, 2^bitdepth - 1]` to
`[minv, maxv]`. -/
def min_max_inv_normalization (x minv maxv : ℚ) (bitdepth : ℕ) : ℚ :=
  x * (maxv - minv) / (2 ^ bitdepth - 1) + minv

/-- `VTM.decode` lines 662-670: assert that every recovered `FrameInfo` range
is `isclose` to the dataset-level `(minv, maxv)` (else the decode aborts with
an `AssertionError`, modelled as `none`, before any reconstructed output is
produced), then inverse-normalize all reconstructed frames with the
dataset-level range at the hard-coded `bitdepth=10`. -/
def VTM.decodeInvNormStage (frameInfos : List FrameRange) (minv maxv : ℚ)
    (recFrames : List (List ℚ)) : Option (List (List ℚ)) :=
  if frameInfos.all (fun fi => isclose fi.minv minv && isclose fi.maxv maxv) then
    some (recFrames.map (fun fr => fr.map
      (fun x => min_max_inv_normalization x minv maxv 10)))
  else none

/-- The inverse normalization the C5 claim describes (refinement target, from
the claim's words): each frame inverse-normalized with **its own** recorded
range, at the **declared** bit depth. -/
def claimPerFrameInvNorm (bitdepth : ℕ) (frameInfos : List FrameRange)
    (recFrames : List (List ℚ)) : List (List ℚ) :=
  List.zipWith (fun fi fr => fr.map
    (fun x => min_max_inv_normalization x fi.minv fi.maxv bitdepth)) frameInfos recFrames

/-- **C4.** The split-inference decode stage succeeds iff every recovered
frame range matches the dataset-level range within the 1e-4
relative/absolute tolerance; any mismatching frame makes it fail (`none`)
before producing reconstructed output. -/
theorem C4_decode_range_gate (frameInfos : List FrameRange) (minv maxv : ℚ)
    (recFrames : List (List ℚ)) :
    VTM.decodeInvNormStage frameInfos minv maxv recFrames ≠ none ↔
      ∀ fi ∈ frameInfos,
        |fi.minv - minv| ≤ max (1 / 10000 * max |fi.minv| |minv|) (1 / 10000) ∧
        |fi.maxv - maxv| ≤ max (1 / 10000 * max |fi.maxv| |maxv|) (1 / 10000) := by
  rw [VTM.decodeInvNormStage]
  by_cases hall : frameInfos.all (fun fi => isclose fi.minv minv && isclose fi.maxv maxv)
  · rw [if_pos hall]
    simp only [ne_eq, Option.some_ne_none, not_false_eq_true, true_iff]
    intro fi hfi
    have := List.all_eq_true.mp hall fi hfi
    simp only [Bool.and_eq_true, isclose, decide_eq_true_eq] at this
    exact this
  · rw [if_neg hall]
    simp only [ne_eq, not_true_eq_false, false_iff, not_forall]
    rw [List.all_eq_true] at hall
    push_neg at hall
    obtain ⟨fi, hfi, hne⟩ := hall
    refine ⟨fi, hfi, fun hc => hne ?_⟩
    simp only [Bool.and_eq_true, isclose, decide_eq_true_eq]
    exact hc

/-- The concrete one-frame gate used in the C5 analysis: recorded range
`(1/10000, 2)` against dataset range `(0, 2)` passes the tolerance check. -/
theorem frameRangeGateExample :
    ([⟨1 / 10000, 2⟩] : List FrameRange).all
      (fun fi => isclose fi.minv 0 && isclose fi.maxv 2) = true := by
  simp only [List.all_cons, List.all_nil, Bool.and_true, Bool.and_eq_true, isclose,
    decide_eq_true_eq]
  constructor
  · have h1 : |(1 : ℚ) / 10000 - 0| = 1 / 10000 := by norm_num
    rw [h1]
    exact le_max_right _ _
  · norm_num

/-- **C5, counterexample.** A frame whose recorded range `(1/10000, 2)`
differs from the dataset-level range `(0, 2)` by exactly the tolerance passes
the gate, yet the code inverse-normalizes pixel 0 to `0` (dataset range,
bit depth 10) while the claimed per-frame rule (own range, declared bit
depth 8) would give `1/10000`: the code does **not** use the frame's own
recorded range or the declared bit depth. -/
theorem C5_counterexample :
    VTM.decodeInvNormStage [⟨1 / 10000, 2⟩] 0 2 [[0]] = some [[0]] ∧
    claimPerFrameInvNorm 8 [⟨1 / 10000, 2⟩] [[0]] = [[1 / 10000]] ∧
    ((0 : ℚ) ≠ 1 / 10000) := by
  refine ⟨?_, ?_, by norm_num⟩
  · rw [VTM.decodeInvNormStage, if_pos frameRangeGateExample]
    simp [min_max_inv_normalization]
  · simp [claimPerFrameInvNorm, min_max_inv_normalization]

/-- **C5, amended.** Whenever the decode gate passes, every reconstructed
frame is inverse-normalized with the **shared dataset-level** range at the
**hard-coded** bit depth 10 — the per-frame recorded ranges (and the declared
bit depth) only gate decoding and never influence the reconstructed values. -/
theorem C5_inv_norm_uses_dataset_range (frameInfos : List FrameRange) (minv maxv : ℚ)
    (recFrames : List (List ℚ))
    (hgate : frameInfos.all (fun fi => isclose fi.minv minv && isclose fi.maxv maxv) = true) :
    VTM.decodeInvNormStage frameInfos minv maxv recFrames =
      some (recFrames.map (fun fr => fr.map
        (fun x => min_max_inv_normalization x minv maxv 10))) ∧
    ∀ frameInfos2 : List FrameRange,
      frameInfos2.all (fun fi => isclose fi.minv minv && isclose fi.maxv maxv) = true →
      VTM.decodeInvNormStage frameInfos2 minv maxv recFrames =
        VTM.decodeInvNormStage frameInfos minv maxv recFrames := by
  refine ⟨by rw [VTM.decodeInvNormStage, if_pos hgate], fun fis2 h2 => ?_⟩
  rw [VTM.decodeInvNormStage, if_pos h2, VTM.decodeInvNormStage, if_pos hgate]

/-- **C5 witness**: the amended statement at the counterexample's input. -/
theorem C5_inv_norm_uses_dataset_range_witness :
    VTM.decodeInvNormStage [⟨1 / 10000, 2⟩] 0 2 [[0]] =
      some ([[ (0 : ℚ) ]].map (fun fr => fr.map
        (fun x => min_max_inv_normalization x 0 2 10))) ∧
    ∀ frameInfos2 : List FrameRange,
      frameInfos2.all (fun fi => isclose fi.minv 0 && isclose fi.maxv 2) = true →
      VTM.decodeInvNormStage frameInfos2 0 2 [[0]] =
        VTM.decodeInvNormStage [⟨1 / 10000, 2⟩] 0 2 [[0]] :=
  C5_inv_norm_uses_dataset_range [⟨1 / 10000, 2⟩] 0 2 [[0]] frameRangeGateExample

/-! ## Worker partial-bitstream naming and concatenation
(`VTM._parallel_encode_cmd` lines 293-327, `VTM.get_parcat_cmd` lines 329-345)

Path strings are modelled as lists of character codes (`List ℕ`), compared by
the lexicographic order that Python `sorted` uses on strings. -/

/-- `f"{i:03d}"` for `i < 1000`: three zero-padded decimal digits as
character codes (`48` is `'0'`). -/
def pad3 (i : ℕ) : List ℕ := [48 + i / 100, 48 + i / 10 % 10, 48 + i % 10]

/-- The literal `-part-` between the path stem and the worker index. -/
def partMarker : List ℕ := [45, 112, 97, 114, 116, 45]

/-- `VTM._parallel_encode_cmd` worker output path:
`f"{parent}/{stem}-part-{worker_idx:03d}{suffix}"` (`47` is `'/'`). -/
def workerBitstreamPath (parent stem sfx : List ℕ) (workerIdx : ℕ) : List ℕ :=
  parent ++ [47] ++ stem ++ partMarker ++ pad3 workerIdx ++ sfx

/-- The partial files created by workers `0 .. numWorkers-1`, in worker order. -/
def workerPartialPaths (parent stem sfx : List ℕ) (numWorkers : ℕ) : List (List ℕ) :=
  (List.range numWorkers).map (workerBitstreamPath parent stem sfx)

/-- `VTM.get_parcat_cmd`: sort the glob-discovered partial files (the glob's
enumeration order is the `discovered` argument) and return the concatenation
command `[parcat, *sorted_partials, bitstream_path]` together with the sorted
partial list. -/
def get_parcat_cmd (parcatPath : List ℕ) (discovered : List (List ℕ))
    (bitstreamPath : List ℕ) : List (List ℕ) × List (List ℕ) :=
  let bitstream_lists := List.insertionSort (· ≤ ·) discovered
  (parcatPath :: bitstream_lists ++ [bitstreamPath], bitstream_lists)

/-- The byte stream produced by concatenating the given files' payloads in
list order. -/
def concatenationOutput (files : List (List ℕ)) (payload : List ℕ → List ℕ) : List ℕ :=
  files.flatMap payload

/-- Zero-padded 3-digit rendering is strictly monotone in the lexicographic
order, whatever follows it. -/
theorem pad3_append_lt {i j : ℕ} (hij : i < j) (hj : j < 1000) (s t : List ℕ) :
    List.Lex (· < ·) (pad3 i ++ s) (pad3 j ++ t) := by
  simp only [pad3, List.cons_append, List.nil_append]
  rcases Nat.lt_trichotomy (i / 100) (j / 100) with h1 | h1 | h1
  · exact List.Lex.rel (by omega)
  · have he1 : 48 + i / 100 = 48 + j / 100 := by omega
    rw [he1]
    rcases Nat.lt_trichotomy (i / 10 % 10) (j / 10 % 10) with h2 | h2 | h2
    · exact List.Lex.cons (List.Lex.rel (by omega))
    · have he2 : 48 + i / 10 % 10 = 48 + j / 10 % 10 := by omega
      rw [he2]
      have h3 : i % 10 < j % 10 := by omega
      exact List.Lex.cons (List.Lex.cons (List.Lex.rel (by omega)))
    · exfalso
      omega
  · exfalso
    omega

/-- Worker paths are strictly increasing in the worker index. -/
theorem workerBitstreamPath_lt (parent stem sfx : List ℕ) {i j : ℕ}
    (hij : i < j) (hj : j < 1000) :
    workerBitstreamPath parent stem sfx i < workerBitstreamPath parent stem sfx j := by
  show List.Lex (· < ·) _ _
  simp only [workerBitstreamPath, List.append_assoc]
  exact List.Lex.append_left _ (List.Lex.append_left _ (List.Lex.append_left _
    (List.Lex.append_left _ (pad3_append_lt hij hj sfx sfx) partMarker) stem) [47]) parent

/-- The worker-order path list is sorted in the string order. -/
theorem workerPartialPaths_sorted (parent stem sfx : List ℕ) {numWorkers : ℕ}
    (hN : numWorkers ≤ 1000) :
    List.Sorted (· ≤ ·) (workerPartialPaths parent stem sfx numWorkers) := by
  rw [workerPartialPaths, List.Sorted, List.pairwise_map]
  refine (List.pairwise_lt_range numWorkers).imp_of_mem ?_
  intro a b ha hb hab
  exact le_of_lt (workerBitstreamPath_lt parent stem sfx hab
    (by have := List.mem_range.mp hb; omega))

/-- **C8.** Worker `i`'s partial path is the final path's directory plus
`{stem}-part-{i:03d}{suffix}`; sorting the glob-discovered partial files (any
enumeration order) yields them in ascending worker-index order, so the parcat
command lists them ascending followed by the final path, and the concatenated
output contains the partial payloads in ascending index order. -/
theorem C8_partial_naming_and_concat_order
    (parent stem sfx parcatPath bitstreamPath : List ℕ) (numWorkers : ℕ)
    (hN : numWorkers ≤ 1000) (discovered : List (List ℕ))
    (hglob : discovered.Perm (workerPartialPaths parent stem sfx numWorkers))
    (payload : List ℕ → List ℕ) :
    (∀ i, workerBitstreamPath parent stem sfx i =
      parent ++ [47] ++ stem ++ partMarker ++ pad3 i ++ sfx) ∧
    get_parcat_cmd parcatPath discovered bitstreamPath =
      (parcatPath :: workerPartialPaths parent stem sfx numWorkers ++ [bitstreamPath],
       workerPartialPaths parent stem sfx numWorkers) ∧
    concatenationOutput (get_parcat_cmd parcatPath discovered bitstreamPath).2 payload =
      (List.range numWorkers).flatMap
        (fun i => payload (workerBitstreamPath parent stem sfx i)) := by
  have hsort : List.insertionSort (· ≤ ·) discovered =
      workerPartialPaths parent stem sfx numWorkers :=
    List.eq_of_perm_of_sorted ((List.perm_insertionSort _ _).trans hglob)
      (List.sorted_insertionSort _ _) (workerPartialPaths_sorted parent stem sfx hN)
  refine ⟨fun i => rfl, ?_, ?_⟩
  · rw [get_parcat_cmd]
    rw [hsort]
  · rw [get_parcat_cmd]
    simp only [hsort, concatenationOutput, workerPartialPaths, List.flatMap_map]

/-- **C8 witness**: two workers, discovery in reversed order, identity
payloads — the command and output are reordered ascending. -/
theorem C8_partial_naming_and_concat_order_witness :
    (∀ i, workerBitstreamPath [116] [115] [46, 98] i =
      [116] ++ [47] ++ [115] ++ partMarker ++ pad3 i ++ [46, 98]) ∧
    get_parcat_cmd [112]
        [workerBitstreamPath [116] [115] [46, 98] 1,
         workerBitstreamPath [116] [115] [46, 98] 0] [98] =
      ([112] :: workerPartialPaths [116] [115] [46, 98] 2 ++ [[98]],
       workerPartialPaths [116] [115] [46, 98] 2) ∧
    concatenationOutput
        (get_parcat_cmd [112]
          [workerBitstreamPath [116] [115] [46, 98] 1,
           workerBitstreamPath [116] [115] [46, 98] 0] [98]).2 id =
      (List.range 2).flatMap (fun i => id (workerBitstreamPath [116] [115] [46, 98] i)) :=
  C8_partial_naming_and_concat_order [116] [115] [46, 98] [112] [98] 2
    (by omega) _ (by decide) id

/-! ## `JM.get_encode_cmd` (std_codecs.py lines 821-900) -/

/-- Embedding of `JM.get_encode_cmd`. The leading
`assert parallel_encoding == False` models as `none` (an `AssertionError`,
no command list returned); otherwise the JM parameter-file style command is
built exactly as in the source. -/
def JM.get_encode_cmd (encoder_path default_cfg_file cfg_file : String)
    (frame_rate intra_period : ℕ) (inp_yuv_path : String) (qp : ℤ)
    (bitstream_path : String) (width height nb_frames : ℕ)
    (parallel_encoding : Bool) (input_bitdepth output_bitdepth : ℕ) :
    Option (List (List String)) :=
  if parallel_encoding then none
  else
    let level : ℕ := 62
    let out_bd := if output_bitdepth = 0 then input_bitdepth else output_bitdepth
    some [[encoder_path, "-d", default_cfg_file, "-f", cfg_file,
      "-p", "InputFile=" ++ inp_yuv_path,
      "-p", "QPISlice=" ++ toString qp,
      "-p", "QPPSlice=" ++ toString qp,
      "-p", "QPBSlice=" ++ toString qp,
      "-p", "SourceWidth=" ++ toString width,
      "-p", "OutputWidth=" ++ toString width,
      "-p", "SourceHeight=" ++ toString height,
      "-p", "OutputHeight=" ++ toString height,
      "-p", "FrameRate=" ++ toString frame_rate,
      "-p", "IntraPeriod=" ++ toString intra_period,
      "-p", "YUVFormat=0",
      "-p", "SourceBitDepthLuma=" ++ toString out_bd,
      "-p", "ChromaWeightSupport=0",
      "-p", "OutputFile=" ++ bitstream_path,
      "-p", "FramesToBeEncoded=" ++ toString nb_frames,
      "-p", "LevelIDC=" ++ toString level]]

/-- **C9.** Whenever parallel encoding is requested, `JM.get_encode_cmd`
raises (returns no command list at all) for every combination of the other
arguments — the request is never degraded into a sequential command. -/
theorem C9_jm_rejects_parallel
    (encoder_path default_cfg_file cfg_file : String)
    (frame_rate intra_period : ℕ) (inp_yuv_path : String) (qp : ℤ)
    (bitstream_path : String) (width height nb_frames : ℕ)
    (input_bitdepth output_bitdepth : ℕ) :
    JM.get_encode_cmd encoder_path default_cfg_file cfg_file frame_rate intra_period
      inp_yuv_path qp bitstream_path width height nb_frames true
      input_bitdepth output_bitdepth = none := rfl

/-! ## Per-frame byte accounting (`VTM.encode` lines 514-533) -/

/-- `VTM.encode` output `bytes` entry:
`[get_filesize(bitstream_path) / nb_frames] * nb_frames` — the file size is
split into a uniform per-frame average (float division, modelled over `ℚ`). -/
def VTM.encodeBytesEntry (bitstreamSize nb_frames : ℕ) : List ℚ :=
  List.replicate nb_frames ((bitstreamSize : ℚ) / nb_frames)

/-- **C10.** For every successful encode of an `nb_frames`-frame sequence, the
output `bytes` entry has exactly `nb_frames` elements, each equal to the
bitstream file size divided by `nb_frames` — a uniform average, not the actual
per-frame bit counts. -/
theorem C10_bytes_uniform_average (bitstreamSize nb_frames : ℕ)
    (hpos : 0 < nb_frames) :
    (VTM.encodeBytesEntry bitstreamSize nb_frames).length = nb_frames ∧
    ∀ b ∈ VTM.encodeBytesEntry bitstreamSize nb_frames,
      b = (bitstreamSize : ℚ) / nb_frames := by
  refine ⟨List.length_replicate _ _, fun b hb => ?_⟩
  exact List.eq_of_mem_replicate hb

/-- **C10 witness**: a 1000-byte bitstream over 4 frames gives four entries
of 250 bytes each. -/
theorem C10_bytes_uniform_average_witness :
    0 < 4 ∧
    ((VTM.encodeBytesEntry 1000 4).length = 4 ∧
     ∀ b ∈ VTM.encodeBytesEntry 1000 4, b = (1000 : ℚ) / 4) :=
  ⟨by decide, C10_bytes_uniform_average 1000 4 (by decide)⟩
